import Mathlib

/-!
Shallow embedding of the ConvCharm channel-conditional image codec
(`conv-charm.py`).  Tensors are modelled along the channel axis as lists:
a latent tensor is a `List C` of channels (the channel content type `C` is
abstract), a slice is a `List C`, and the collection of decoded slices is a
`List (List C)`.  Spatial structure only matters for the final crop/cast of
`decompress`, where the synthesis output is a rows-by-columns-by-channels
grid of rational pixel values.  Bitstrings have abstract type `S`, the
hyperprior tensor `z` has abstract type `Z`, images have abstract type
`Img`, and the learned hyperprior parameters have abstract type `HP`.
The learned networks and the entropy-coder primitives are fields of the
model record, so every theorem quantifies over them.
-/

/-- Errors the Python code can raise at the modelled call sites:
`ValueError` in `SliceTransform.__init__`, `ZeroDivisionError` in
`ConvCharm.__init__`, `AttributeError` when `compress`/`decompress` touch
`self.em_z`/`self.em_y` before `fit` created them, and the
`assert len(y_strings) == self.num_slices` in `decompress`. -/
inductive CodecError where
  | valueError : String → CodecError
  | zeroDivisionError : CodecError
  | attributeError : CodecError
  | assertionError : CodecError
deriving DecidableEq, Repr

/-- `True` exactly on `Except.ok`. -/
def isOkB {ε α : Type} : Except ε α → Bool
  | .ok _ => true
  | .error _ => false

/-- Frozen hyperprior entropy model `em_z`
(`tfc.ContinuousBatchedEntropyModel` with `compression=True`):
`compress(z) -> bytes` and `decompress(bytes, shape) -> z_hat`. -/
structure EMz (Z S : Type) where
  comp : Z → S
  decomp : S → ℕ × ℕ → Z

/-- Conditional entropy model `em_y`
(`tfc.LocationScaleIndexedEntropyModel`): `compress(y_slice, sigma, mu)`,
`decompress(string, sigma, loc=mu)` and `quantize(y_slice, loc=mu)`. -/
structure EMy (C S : Type) where
  comp : List C → List C → List C → S
  decomp : S → List C → List C → List C
  quant : List C → List C → List C

/-- The learned sub-networks of the model, abstract functions at the
channel-list granularity.  `cc_mean`/`cc_scale` model the per-slice
`SliceTransform` networks together with the spatial crop
`[:, :y_shape[0], :y_shape[1], :]`, hence they take the latent spatial
shape and the slice index as extra arguments.  `synthesis` produces the
spatial grid of rational pixel values of the reconstructed image. -/
structure Networks (C Z Img : Type) where
  analysis : Img → List C
  hyper_analysis : List C → Z
  hyper_synthesis_mean_scale : Z → List C
  synthesis : List C → List (List (List ℚ))
  cc_mean : ℕ × ℕ → ℕ → List C → List C
  cc_scale : ℕ × ℕ → ℕ → List C → List C
  imgShape : Img → ℕ × ℕ
  yShape : List C → ℕ × ℕ
  zShape : Z → ℕ × ℕ

/-- The `ConvCharm` model state: the configuration fixed at construction,
the learned networks, the learned hyperprior parameters, and the frozen
entropy models `em_z`/`em_y`, present only after `fit` has run
(`none` models the attributes not existing yet). -/
structure ConvCharm (C Z S Img HP : Type) where
  num_slices : ℕ
  slice_size : ℕ
  max_support_slices : ℤ
  num_scales : ℕ
  hyperprior : HP
  nets : Networks C Z Img
  em : Option (EMz Z S × EMy C S)

/-- `SliceTransform.__init__`: computes `slice_depth = latent_depth //
num_slices` and raises `ValueError` when slices do not evenly divide the
latent depth. -/
def sliceTransformInit (latent_depth num_slices : ℕ) : Except CodecError ℕ :=
  let slice_depth := latent_depth / num_slices
  if slice_depth * num_slices ≠ latent_depth then
    .error (.valueError "Slices do not evenly divide latent depth")
  else
    .ok slice_depth

/-- `ConvCharm.__init__`: stores the configuration, computes
`slice_size = latent_depth // num_slices` (a `ZeroDivisionError` when
`num_slices = 0`), and constructs the per-slice `SliceTransform` networks,
which raise on a non-divisible configuration.  No check involves
`num_scales`.  The entropy-model attributes `em_z`/`em_y` are not created
here. -/
def convCharmInit {C Z S Img HP : Type}
    (latent_depth num_slices : ℕ) (max_support_slices : ℤ)
    (num_scales : ℕ) (hp : HP) (nets : Networks C Z Img) :
    Except CodecError (ConvCharm C Z S Img HP) :=
  if num_slices = 0 then .error .zeroDivisionError
  else
    match sliceTransformInit latent_depth num_slices with
    | .error e => .error e
    | .ok slice_depth =>
        .ok { num_slices := num_slices
              slice_size := slice_depth
              max_support_slices := max_support_slices
              num_scales := num_scales
              hyperprior := hp
              nets := nets
              em := none }

/-- `ConvCharm.fit`: after training, fixes the range coding tables by
building frozen `em_z` (from the learned hyperprior) and `em_y` (from the
scale configuration).  This is the one-way freezing transition. -/
def fitModel {C Z S Img HP : Type}
    (buildEMz : HP → EMz Z S) (buildEMy : ℕ → EMy C S)
    (M : ConvCharm C Z S Img HP) : ConvCharm C Z S Img HP :=
  { M with em := some (buildEMz M.hyperprior, buildEMy M.num_scales) }

/-- Lines 242-243 / 366-367 / 407-408 of `conv-charm.py`:
`support_slices = (y_hat_slices if self.max_support_slices < 0 else
y_hat_slices[:self.max_support_slices])`. -/
def supportSlices {C : Type} (msl : ℤ) (acc : List (List C)) :
    List (List C) :=
  if msl < 0 then acc else acc.take msl.toNat

/-- The spec's reading of the support gathering:
`support = y_hat_slices[max(0, i - max_support_slices) : i]` when the bound
is non-negative — the most recent `max_support_slices` decoded slices
(`acc` holds the `i` previously decoded slices). -/
def supportSlicesSpec {C : Type} (msl : ℤ) (acc : List (List C)) :
    List (List C) :=
  if msl < 0 then acc else acc.drop (acc.length - msl.toNat)

/-- `latent_means[:, :, :, start_index:end_index]` with
`start_index = slice_index * slice_size` and
`end_index = start_index + slice_size`: TF strided slicing clamps
out-of-range bounds, which `drop`/`take` model exactly. -/
def ctxSlice {C : Type} (lm : List C) (ssize i : ℕ) : List C :=
  (lm.drop (i * ssize)).take ssize

/-- `tf.split(latent_means_scales, 2, axis=-1)`: the channel axis is cut
into two equal halves. -/
def splitTwo {C : Type} (l : List C) : List C × List C :=
  (l.take (l.length / 2), l.drop (l.length / 2))

/-- `tf.split(y, num_slices, axis=-1)`: `n` contiguous channel chunks of
equal size `y.length / n`. -/
def splitSlices {C : Type} (y : List C) (n : ℕ) : List (List C) :=
  (List.range n).map fun i => (y.drop (i * (y.length / n))).take (y.length / n)

/-- `tf.round`: round half to even, on rational pixel values. -/
def roundTF (q : ℚ) : ℤ :=
  let f := ⌊q⌋
  let r := q - (f : ℚ)
  if r < 1 / 2 then f
  else if 1 / 2 < r then f + 1
  else if f % 2 = 0 then f else f + 1

/-- `tf.saturate_cast(·, tf.uint8)`: clamp to `[0, 255]`. -/
def saturateCastUInt8 (z : ℤ) : ℕ :=
  if z < 0 then 0 else if 255 < z then 255 else z.toNat

/-- `x_hat[0, :x_shape[0], :x_shape[1], :]` followed by
`tf.saturate_cast(tf.round(x_hat), tf.uint8)`: crop the synthesis output
to the stored image shape and cast each value by saturating round. -/
def cropCast (t : List (List (List ℚ))) (h w : ℕ) : List (List (List ℕ)) :=
  (t.take h).map fun row =>
    (row.take w).map fun px => px.map fun q => saturateCastUInt8 (roundTF q)

/-- The slice loop of `ConvCharm.call` (lines 240-271): for each slice,
gather the support, slice the hyper contexts, predict `mu` and `sigma`,
and produce `y_hat_slice` by `em_y.quantize(y_slice, loc=mu)`. -/
def callLoop {C Z S Img HP : Type} (M : ConvCharm C Z S Img HP)
    (emy : EMy C S) (ysh : ℕ × ℕ) (lm ls : List C) :
    List (List C) → ℕ → List (List C) → List (List C)
  | [], _, acc => acc
  | yslice :: rest, i, acc =>
      let support := supportSlices M.max_support_slices acc
      let mu := M.nets.cc_mean ysh i
        (ctxSlice lm M.slice_size i ++ support.flatten)
      let _sigma := M.nets.cc_scale ysh i
        (ctxSlice ls M.slice_size i ++ support.flatten)
      let yhat := emy.quant yslice mu
      callLoop M emy ysh lm ls rest (i + 1) (acc ++ [yhat])

/-- The slice loop of `ConvCharm.compress` (lines 364-389): like the
`call` loop, but each slice is entropy-coded
(`slice_string = em_y.compress(y_slice, sigma, mu)`) and the decoded slice
used as support downstream is recovered from the string
(`y_hat_slice = em_y.decompress(slice_string, sigma, mu)`).  Returns the
accumulated strings and decoded slices. -/
def compressLoop {C Z S Img HP : Type} (M : ConvCharm C Z S Img HP)
    (emy : EMy C S) (ysh : ℕ × ℕ) (lm ls : List C) :
    List (List C) → ℕ → List (List C) → List S → List S × List (List C)
  | [], _, acc, strs => (strs, acc)
  | yslice :: rest, i, acc, strs =>
      let support := supportSlices M.max_support_slices acc
      let mu := M.nets.cc_mean ysh i
        (ctxSlice lm M.slice_size i ++ support.flatten)
      let sigma := M.nets.cc_scale ysh i
        (ctxSlice ls M.slice_size i ++ support.flatten)
      let s := emy.comp yslice sigma mu
      let yhat := emy.decomp s sigma mu
      compressLoop M emy ysh lm ls rest (i + 1) (acc ++ [yhat]) (strs ++ [s])

/-- The slice loop of `ConvCharm.decompress` (lines 404-428): for each
slice string, gather the support, slice the hyper contexts, predict `mu`
and `sigma`, and decode `y_hat_slice = em_y.decompress(string, sigma,
loc=mu)`. -/
def decodeLoop {C Z S Img HP : Type} (M : ConvCharm C Z S Img HP)
    (emy : EMy C S) (ysh : ℕ × ℕ) (lm ls : List C) :
    List S → ℕ → List (List C) → List (List C)
  | [], _, acc => acc
  | s :: rest, i, acc =>
      let support := supportSlices M.max_support_slices acc
      let mu := M.nets.cc_mean ysh i
        (ctxSlice lm M.slice_size i ++ support.flatten)
      let sigma := M.nets.cc_scale ysh i
        (ctxSlice ls M.slice_size i ++ support.flatten)
      let yhat := emy.decomp s sigma mu
      decodeLoop M emy ysh lm ls rest (i + 1) (acc ++ [yhat])

/-- The `call` slice loop under the spec's reading of the support
gathering (most recent `max_support_slices` decoded slices); everything
else is unchanged. -/
def callLoopSpec {C Z S Img HP : Type} (M : ConvCharm C Z S Img HP)
    (emy : EMy C S) (ysh : ℕ × ℕ) (lm ls : List C) :
    List (List C) → ℕ → List (List C) → List (List C)
  | [], _, acc => acc
  | yslice :: rest, i, acc =>
      let support := supportSlicesSpec M.max_support_slices acc
      let mu := M.nets.cc_mean ysh i
        (ctxSlice lm M.slice_size i ++ support.flatten)
      let _sigma := M.nets.cc_scale ysh i
        (ctxSlice ls M.slice_size i ++ support.flatten)
      let yhat := emy.quant yslice mu
      callLoopSpec M emy ysh lm ls rest (i + 1) (acc ++ [yhat])

/-- `ConvCharm.compress` (lines 339-391): analysis, hyper-analysis,
hyperprior coding `z_string = em_z.compress(z)` with
`z_hat = em_z.decompress(z_string, z_shape)`, hyper-synthesis split into
means and scales halves, the slice loop, and the returned tuple
`(x_shape, y_shape, z_shape, z_string) + tuple(y_strings)`.  Touching
`self.em_z`/`self.em_y` before `fit` raises `AttributeError`. -/
def compressFull {C Z S Img HP : Type} (M : ConvCharm C Z S Img HP)
    (x : Img) :
    Except CodecError ((ℕ × ℕ) × (ℕ × ℕ) × (ℕ × ℕ) × S × List S) :=
  match M.em with
  | none => .error .attributeError
  | some (emz, emy) =>
      let xsh := M.nets.imgShape x
      let y := M.nets.analysis x
      let ysh := M.nets.yShape y
      let z := M.nets.hyper_analysis y
      let zsh := M.nets.zShape z
      let z_string := emz.comp z
      let z_hat := emz.decomp z_string zsh
      let lms := M.nets.hyper_synthesis_mean_scale z_hat
      let res := compressLoop M emy ysh (splitTwo lms).1 (splitTwo lms).2
        (splitSlices y M.num_slices) 0 [] []
      .ok (xsh, ysh, zsh, z_string, res.1)

/-- The decoded slices `y_hat_slices` that `compress` builds internally
while encoding (the same loop as `compressFull`, projected to its decoded
slices). -/
def compressYhat {C Z S Img HP : Type} (M : ConvCharm C Z S Img HP)
    (emz : EMz Z S) (emy : EMy C S) (x : Img) : List (List C) :=
  let y := M.nets.analysis x
  let ysh := M.nets.yShape y
  let z := M.nets.hyper_analysis y
  let zsh := M.nets.zShape z
  let z_string := emz.comp z
  let z_hat := emz.decomp z_string zsh
  let lms := M.nets.hyper_synthesis_mean_scale z_hat
  (compressLoop M emy ysh (splitTwo lms).1 (splitTwo lms).2
    (splitSlices y M.num_slices) 0 [] []).2

/-- `ConvCharm.decompress` (lines 393-437): asserts the slice-string
arity, decodes `z_hat`, recomputes the hyper contexts, runs the slice
decode loop, merges the slices, synthesizes, crops to `x_shape` and casts
to 8-bit by saturating round; returns the image together with `y_hat`. -/
def decompressFull {C Z S Img HP : Type} (M : ConvCharm C Z S Img HP)
    (xsh ysh zsh : ℕ × ℕ) (z_string : S) (y_strings : List S) :
    Except CodecError (List (List (List ℕ)) × List C) :=
  if y_strings.length ≠ M.num_slices then .error .assertionError
  else
    match M.em with
    | none => .error .attributeError
    | some (emz, emy) =>
        let z_hat := emz.decomp z_string zsh
        let lms := M.nets.hyper_synthesis_mean_scale z_hat
        let yhats := decodeLoop M emy ysh (splitTwo lms).1 (splitTwo lms).2
          y_strings 0 []
        let y_hat := yhats.flatten
        let x_hat := M.nets.synthesis y_hat
        .ok (cropCast x_hat xsh.1 xsh.2, y_hat)

/-- The decoded slices `y_hat_slices` that `decompress` recomputes from
the bitstream (the same loop as `decompressFull`, projected). -/
def decompressYhat {C Z S Img HP : Type} (M : ConvCharm C Z S Img HP)
    (emz : EMz Z S) (emy : EMy C S) (ysh zsh : ℕ × ℕ) (z_string : S)
    (y_strings : List S) : List (List C) :=
  let z_hat := emz.decomp z_string zsh
  let lms := M.nets.hyper_synthesis_mean_scale z_hat
  decodeLoop M emy ysh (splitTwo lms).1 (splitTwo lms).2 y_strings 0 []

/-- Lines 174-177 of `conv-charm.py`:
`offset = log(scale_min)`, `factor = (log(scale_max) - log(scale_min)) /
(num_scales - 1.)`, `scale_fn = lambda i: exp(offset + factor * i)`,
modelled over the reals. -/
noncomputable def scale_fn (scale_min scale_max : ℝ) (num_scales : ℕ) :
    ℝ → ℝ :=
  fun i => Real.exp (Real.log scale_min +
    (Real.log scale_max - Real.log scale_min) / ((num_scales : ℝ) - 1) * i)

/-- An IEEE-754-style value: a finite real, an infinity, or NaN.  Used to
model the TF float semantics of the `factor` computation, where a division
by zero does not raise but produces a non-finite value. -/
inductive TFFloat where
  | fin : ℝ → TFFloat
  | posInf : TFFloat
  | negInf : TFFloat
  | nan : TFFloat

/-- `True` exactly on finite values. -/
def TFFloat.isFinite : TFFloat → Bool
  | .fin _ => true
  | _ => false

/-- The `factor` computation of lines 175-176 under IEEE float semantics:
dividing a nonzero value by zero yields a signed infinity (and `0/0`
yields NaN) instead of raising. -/
noncomputable def factorTF (scale_min scale_max : ℝ) (num_scales : ℕ) :
    TFFloat :=
  if ((num_scales : ℝ) - 1) = 0 then
    if 0 < Real.log scale_max - Real.log scale_min then .posInf
    else if Real.log scale_max - Real.log scale_min < 0 then .negInf
    else .nan
  else .fin ((Real.log scale_max - Real.log scale_min) / ((num_scales : ℝ) - 1))

/-- `scale_fn` under IEEE float semantics: `exp(offset + factor * i)`
where `offset = log(scale_min)` is finite (for positive `scale_min`) and
`factor` may be non-finite.  `inf * 0 = nan`, `exp(nan) = nan`,
`exp(+inf) = +inf`, `exp(-inf) = 0`. -/
noncomputable def scaleFnTF (scale_min scale_max : ℝ) (num_scales : ℕ)
    (i : ℝ) : TFFloat :=
  match factorTF scale_min scale_max num_scales with
  | .fin f => .fin (Real.exp (Real.log scale_min + f * i))
  | .posInf =>
      if i = 0 then .nan else if 0 < i then .posInf else .fin 0
  | .negInf =>
      if i = 0 then .nan else if 0 < i then .fin 0 else .posInf
  | .nan => .nan

/-- The reconstructed-image component of `decompress` (a projection of
`decompressFull`'s result): crop of the synthesis output of the merged
decoded slices, cast to 8-bit by saturating round. -/
def decompressRecon {C Z S Img HP : Type} (M : ConvCharm C Z S Img HP)
    (emz : EMz Z S) (emy : EMy C S) (xsh ysh zsh : ℕ × ℕ) (z_string : S)
    (y_strings : List S) : List (List (List ℕ)) :=
  cropCast
    (M.nets.synthesis (decompressYhat M emz emy ysh zsh z_string y_strings).flatten)
    xsh.1 xsh.2

/-- Index into a rows-by-columns-by-channels grid. -/
def lookup3 {α : Type} (t : List (List (List α))) (i j c : ℕ) : Option α :=
  (t[i]?.bind fun row => row[j]?).bind fun px => px[c]?

/-- Trivial concrete networks over natural-number channels, used to
instantiate the model at concrete inputs.  The per-slice predictors are
the identity, so predictions reveal exactly their support input. -/
def netsId : Networks ℕ ℕ ℕ where
  analysis := fun _ => []
  hyper_analysis := fun _ => 0
  hyper_synthesis_mean_scale := fun _ => []
  synthesis := fun _ => []
  cc_mean := fun _ _ l => l
  cc_scale := fun _ _ l => l
  imgShape := fun _ => (0, 0)
  yShape := fun _ => (0, 0)
  zShape := fun _ => (0, 0)

/-- A concrete conditional entropy model over `Unit` strings whose decoder
and quantizer both return `mu`: decoded slices then equal the mean
prediction, making the support visible in the loop output. -/
def emyMu : EMy ℕ Unit where
  comp := fun _ _ _ => ()
  decomp := fun _ _ mu => mu
  quant := fun _ mu => mu

/-- A concrete hyperprior entropy model over `Unit` strings. -/
def emzU : EMz ℕ Unit where
  comp := fun _ => ()
  decomp := fun _ _ => 0

/-- A concrete model instance: 10 slices of one channel each,
`max_support_slices = 3`, identity per-slice networks, not yet fitted. -/
def Mc1 : ConvCharm ℕ ℕ Unit ℕ ℕ where
  num_slices := 10
  slice_size := 1
  max_support_slices := 3
  num_scales := 64
  hyperprior := 0
  nets := netsId
  em := none

/-- Hyper context channels `100, 101, ..., 109`, one per slice. -/
def lm10 : List ℕ := (List.range 10).map fun i => 100 + i

/-- The concrete model after the freezing transition. -/
def Mc3 : ConvCharm ℕ ℕ Unit ℕ ℕ := { Mc1 with em := some (emzU, emyMu) }

/-- The model record produced by a valid default construction
(`latent_depth = 320`, `num_slices = 10`). -/
def M320 : ConvCharm ℕ ℕ Unit ℕ ℕ where
  num_slices := 10
  slice_size := 32
  max_support_slices := 5
  num_scales := 64
  hyperprior := 0
  nets := netsId
  em := none

/-- One step of the `decompress` slice loop: the decoded slice produced
for slice `i` given the previously decoded slices `acc` and the slice
string `s`. -/
def decodeStep {C Z S Img HP : Type} (M : ConvCharm C Z S Img HP)
    (emy : EMy C S) (ysh : ℕ × ℕ) (lm ls : List C) (i : ℕ)
    (acc : List (List C)) (s : S) : List C :=
  emy.decomp s
    (M.nets.cc_scale ysh i
      (ctxSlice ls M.slice_size i ++ (supportSlices M.max_support_slices acc).flatten))
    (M.nets.cc_mean ysh i
      (ctxSlice lm M.slice_size i ++ (supportSlices M.max_support_slices acc).flatten))

/-- One step of the `call` slice loop: the quantized slice produced for
slice `i`. -/
def callStep {C Z S Img HP : Type} (M : ConvCharm C Z S Img HP)
    (emy : EMy C S) (ysh : ℕ × ℕ) (lm _ls : List C) (i : ℕ)
    (acc : List (List C)) (y : List C) : List C :=
  emy.quant y
    (M.nets.cc_mean ysh i
      (ctxSlice lm M.slice_size i ++ (supportSlices M.max_support_slices acc).flatten))

/-- One step of the `compress` slice loop, string component:
`em_y.compress(y_slice, sigma, mu)`. -/
def compressStepStr {C Z S Img HP : Type} (M : ConvCharm C Z S Img HP)
    (emy : EMy C S) (ysh : ℕ × ℕ) (lm ls : List C) (i : ℕ)
    (acc : List (List C)) (y : List C) : S :=
  emy.comp y
    (M.nets.cc_scale ysh i
      (ctxSlice ls M.slice_size i ++ (supportSlices M.max_support_slices acc).flatten))
    (M.nets.cc_mean ysh i
      (ctxSlice lm M.slice_size i ++ (supportSlices M.max_support_slices acc).flatten))

/-- One step of the `compress` slice loop, decoded-slice component:
`em_y.decompress(slice_string, sigma, mu)`. -/
def compressStepYhat {C Z S Img HP : Type} (M : ConvCharm C Z S Img HP)
    (emy : EMy C S) (ysh : ℕ × ℕ) (lm ls : List C) (i : ℕ)
    (acc : List (List C)) (y : List C) : List C :=
  decodeStep M emy ysh lm ls i acc (compressStepStr M emy ysh lm ls i acc y)

/-- C5: for every configuration where `num_slices` does not evenly divide
`latent_depth`, constructing the model raises before any forward pass, and
for every valid configuration `latent_depth = num_slices * slice_size`
exactly. -/
theorem claim_C5 {C Z S Img HP : Type} (ld ns : ℕ) (msl : ℤ) (nsc : ℕ)
    (hp : HP) (nets : Networks C Z Img) :
    (¬ ns ∣ ld →
      isOkB (@convCharmInit C Z S Img HP ld ns msl nsc hp nets) = false) ∧
    (∀ M : ConvCharm C Z S Img HP,
      convCharmInit ld ns msl nsc hp nets = .ok M →
      ld = ns * M.slice_size) := by
  constructor
  · intro hdvd
    unfold convCharmInit sliceTransformInit
    by_cases h0 : ns = 0
    · simp [h0, isOkB]
    · rw [if_neg h0]
      have hne : ld / ns * ns ≠ ld := by
        intro heq
        exact hdvd (Dvd.intro_left (ld / ns) heq)
      simp [hne, isOkB]
  · intro M hM
    unfold convCharmInit sliceTransformInit at hM
    by_cases h0 : ns = 0
    · simp [h0] at hM
    · rw [if_neg h0] at hM
      by_cases hne : ld / ns * ns ≠ ld
      · simp [hne] at hM
      · push_neg at hne
        simp only [hne, ne_eq, not_true_eq_false, if_false, if_neg] at hM
        cases hM
        calc ld = ld / ns * ns := hne.symm
        _ = ns * (ld / ns) := Nat.mul_comm _ _

/-- Witness for C5: `latent_depth = 320` with `num_slices = 7` fails, and
the valid default `latent_depth = 320`, `num_slices = 10` yields
`slice_size = 32` with `320 = 10 * 32`. -/
theorem claim_C5_witness :
    isOkB (@convCharmInit ℕ ℕ Unit ℕ ℕ 320 7 5 64 0 netsId) = false ∧
    320 = 10 * M320.slice_size :=
  ⟨(claim_C5 320 7 5 64 (0 : ℕ) netsId).1 (by decide),
   (claim_C5 320 10 5 64 (0 : ℕ) netsId).2 M320 (by rfl)⟩

/-- C9: calling `decompress` with a number of slice strings different from
the configured `num_slices` is a fatal error (the assertion at the top of
`decompress` fails). -/
theorem claim_C9 {C Z S Img HP : Type} (M : ConvCharm C Z S Img HP)
    (xsh ysh zsh : ℕ × ℕ) (zs : S) (ystrs : List S)
    (h : ystrs.length ≠ M.num_slices) :
    decompressFull M xsh ysh zsh zs ystrs = .error .assertionError := by
  unfold decompressFull
  rw [if_pos h]

/-- Witness for C9: decoding with 0 slice strings on the 10-slice model
fails with the assertion error. -/
theorem claim_C9_witness :
    decompressFull Mc3 (0, 0) (0, 0) (0, 0) () [] = .error .assertionError :=
  claim_C9 Mc3 (0, 0) (0, 0) (0, 0) () [] (by decide)

/-- C6: `compress`/`decompress` before the freezing transition fail with
the lifecycle (attribute) error; `fit` installs the frozen models, and
afterwards `compress`/`decompress` run on them without error. -/
theorem claim_C6 {C Z S Img HP : Type} (M : ConvCharm C Z S Img HP)
    (buildEMz : HP → EMz Z S) (buildEMy : ℕ → EMy C S) (x : Img)
    (xsh ysh zsh : ℕ × ℕ) (zs : S) (ystrs : List S)
    (hpre : M.em = none) (hlen : ystrs.length = M.num_slices) :
    compressFull M x = .error .attributeError ∧
    decompressFull M xsh ysh zsh zs ystrs = .error .attributeError ∧
    (fitModel buildEMz buildEMy M).em =
      some (buildEMz M.hyperprior, buildEMy M.num_scales) ∧
    isOkB (compressFull (fitModel buildEMz buildEMy M) x) = true ∧
    isOkB (decompressFull (fitModel buildEMz buildEMy M) xsh ysh zsh zs ystrs)
      = true := by
  refine ⟨?_, ?_, rfl, ?_, ?_⟩
  · unfold compressFull
    rw [hpre]
  · unfold decompressFull
    rw [if_neg (by simp [hlen]), hpre]
  · unfold compressFull fitModel
    simp [isOkB]
  · unfold decompressFull fitModel
    rw [if_neg (by simp [hlen])]
    simp [isOkB]

/-- Witness for C6: the concrete unfitted model fails both calls; after
`fit` both succeed. -/
theorem claim_C6_witness :
    compressFull Mc1 0 = .error .attributeError ∧
    decompressFull Mc1 (0, 0) (0, 0) (0, 0) () (List.replicate 10 ()) =
      .error .attributeError ∧
    (fitModel (fun _ => emzU) (fun _ => emyMu) Mc1).em =
      some (emzU, emyMu) ∧
    isOkB (compressFull (fitModel (fun _ => emzU) (fun _ => emyMu) Mc1) 0)
      = true ∧
    isOkB (decompressFull (fitModel (fun _ => emzU) (fun _ => emyMu) Mc1)
      (0, 0) (0, 0) (0, 0) () (List.replicate 10 ())) = true :=
  claim_C6 Mc1 (fun _ => emzU) (fun _ => emyMu) 0 (0, 0) (0, 0) (0, 0) ()
    (List.replicate 10 ()) rfl (by decide)

set_option maxRecDepth 10000 in
/-- C2 (code bug): with the default configuration (`latent_depth = 320`,
`num_slices = 10`, `slice_size = 32`) the hyper-synthesis output has 320
channels, so after the two-way split `latent_means` has only 160 channels;
the per-slice context of slice 4 still has the full 32 channels, but the
context of slice 5 — sliced at channels `[160:192]` — is empty, because TF
strided slicing clamps the out-of-range bounds. -/
theorem claim_C2_code_bug :
    (splitTwo (List.range 320)).1.length = 160 ∧
    (ctxSlice (splitTwo (List.range 320)).1 32 4).length = 32 ∧
    ctxSlice (splitTwo (List.range 320)).1 32 4 ≠ [] ∧
    ctxSlice (splitTwo (List.range 320)).1 32 5 = [] := by decide

/-- C1 (counterexample): the loops do not gather the most recent
`max_support_slices` decoded slices.  With identity per-slice networks,
one-channel slices, context channels `100..109` and
`max_support_slices = 3`, the `call` slice loop differs from the loop that
gathers `y_hat_slices[max(0, i - max_support_slices) : i]` as the spec
states. -/
theorem claim_C1_counterexample :
    callLoop Mc1 emyMu (0, 0) lm10 lm10 (List.replicate 10 []) 0 [] ≠
    callLoopSpec Mc1 emyMu (0, 0) lm10 lm10 (List.replicate 10 []) 0 [] := by
  decide

/-- C1 (amended): with `max_support_slices = k ≥ 0` the support gathered
for slice `i` is the earliest `min i k` decoded slices,
`y_hat_slices[0 : k]`; in particular, with 10 slices and `k = 3`, slice
9's decoded value in the instrumented model is its context channel 109
followed by the decoded slices 0, 1 and 2 — not slices 6, 7, 8. -/
theorem claim_C1_amended :
    (∀ (C : Type) (msl : ℤ), 0 ≤ msl → ∀ acc : List (List C),
      supportSlices msl acc = acc.take (min acc.length msl.toNat)) ∧
    (callLoop Mc1 emyMu (0, 0) lm10 lm10 (List.replicate 10 []) 0 [])[9]? =
      some [109, 100, 101, 100, 102, 100, 101, 100] := by
  constructor
  · intro C msl h acc
    unfold supportSlices
    rw [if_neg (not_lt.mpr h), List.take_eq_take]
    omega
  · decide

/-- Witness for the amended C1: with `k = 3` and five decoded slices, the
support is the earliest three. -/
theorem claim_C1_amended_witness :
    supportSlices 3 [[0], [1], [2], [3], [4]] =
      ([[0], [1], [2], [3], [4]] : List (List ℕ)).take
        (min ([[0], [1], [2], [3], [4]] : List (List ℕ)).length
          (3 : ℤ).toNat) :=
  claim_C1_amended.1 ℕ 3 (by decide) [[0], [1], [2], [3], [4]]

/-- C7: for `0 < scale_min < scale_max` and `num_scales ≥ 2`, `scale_fn`
is strictly increasing on `[0, num_scales - 1]`, with
`scale_fn 0 = scale_min` and `scale_fn (num_scales - 1) = scale_max`. -/
theorem claim_C7 (smin smax : ℝ) (n : ℕ) (h0 : 0 < smin)
    (h1 : smin < smax) (hn : 2 ≤ n) :
    StrictMonoOn (scale_fn smin smax n) (Set.Icc 0 ((n : ℝ) - 1)) ∧
    scale_fn smin smax n 0 = smin ∧
    scale_fn smin smax n ((n : ℝ) - 1) = smax := by
  have hn2 : (2 : ℝ) ≤ (n : ℝ) := by exact_mod_cast hn
  have hden : (0 : ℝ) < (n : ℝ) - 1 := by linarith
  have hlog : Real.log smin < Real.log smax := Real.log_lt_log h0 h1
  have hfac : 0 < (Real.log smax - Real.log smin) / ((n : ℝ) - 1) :=
    div_pos (by linarith) hden
  refine ⟨?_, ?_, ?_⟩
  · intro a _ b _ hab
    unfold scale_fn
    exact Real.exp_lt_exp.mpr
      (add_lt_add_left (mul_lt_mul_of_pos_left hab hfac) _)
  · unfold scale_fn
    rw [mul_zero, add_zero, Real.exp_log h0]
  · unfold scale_fn
    rw [div_mul_cancel₀ _ (ne_of_gt hden)]
    have hsum : Real.log smin + (Real.log smax - Real.log smin) =
        Real.log smax := by ring
    rw [hsum, Real.exp_log (h0.trans h1)]

/-- Witness for C7 at `scale_min = 1`, `scale_max = 2`, `num_scales = 2`.
-/
theorem claim_C7_witness :
    StrictMonoOn (scale_fn 1 2 2) (Set.Icc 0 (((2 : ℕ) : ℝ) - 1)) ∧
    scale_fn 1 2 2 0 = 1 ∧
    scale_fn 1 2 2 (((2 : ℕ) : ℝ) - 1) = 2 :=
  claim_C7 1 2 2 zero_lt_one one_lt_two (le_refl 2)

/-- C10: constructing with `num_scales = 1` divides by zero in the
`factor` computation, producing a non-finite `scale_fn` (here evaluated at
index 1) instead of raising; the constructor imposes no guard on
`num_scales` (a valid-slices construction with `num_scales = 1` succeeds),
and every `scale_fn` value is finite once `num_scales ≥ 2`. -/
theorem claim_C10 (smin smax : ℝ) (h0 : 0 < smin) (h1 : smin < smax) :
    scaleFnTF smin smax 1 1 = .posInf ∧
    (∀ n : ℕ, 2 ≤ n → ∀ i : ℝ,
      (scaleFnTF smin smax n i).isFinite = true) ∧
    isOkB (@convCharmInit ℕ ℕ Unit ℕ ℕ 320 10 5 1 0 netsId) = true := by
  have hlog : 0 < Real.log smax - Real.log smin :=
    sub_pos.mpr (Real.log_lt_log h0 h1)
  refine ⟨?_, ?_, by decide⟩
  · unfold scaleFnTF factorTF
    have e1 : (((1 : ℕ) : ℝ) - 1) = 0 := by norm_num
    rw [if_pos e1, if_pos hlog]
    norm_num
  · intro n hn i
    have hn2 : (2 : ℝ) ≤ (n : ℝ) := by exact_mod_cast hn
    have hne : ((n : ℝ) - 1) ≠ 0 := by intro h; linarith [h]
    unfold scaleFnTF factorTF
    rw [if_neg hne]
    rfl

/-- Witness for C10 at `scale_min = 1`, `scale_max = 2`. -/
theorem claim_C10_witness :
    scaleFnTF 1 2 1 1 = .posInf ∧
    (∀ n : ℕ, 2 ≤ n → ∀ i : ℝ, (scaleFnTF 1 2 n i).isFinite = true) ∧
    isOkB (@convCharmInit ℕ ℕ Unit ℕ ℕ 320 10 5 1 0 netsId) = true :=
  claim_C10 1 2 zero_lt_one one_lt_two


theorem take_of_take_append {α : Type} {l acc : List α} (x : α)
    (h : l.take (acc.length + 1) = acc ++ [x]) : l.take acc.length = acc := by
  have h2 : l.take acc.length = (l.take (acc.length + 1)).take acc.length := by
    rw [List.take_take]
    congr 1
    omega
  rw [h2, h]
  exact List.take_left acc [x]

section Loops

variable {C Z S Img HP : Type} (M : ConvCharm C Z S Img HP) (emy : EMy C S)
variable (ysh : ℕ × ℕ) (lm ls : List C)

theorem decodeLoop_cons (s : S) (rest : List S) (i : ℕ)
    (acc : List (List C)) :
    decodeLoop M emy ysh lm ls (s :: rest) i acc =
    decodeLoop M emy ysh lm ls rest (i + 1)
      (acc ++ [decodeStep M emy ysh lm ls i acc s]) := rfl

theorem callLoop_cons (y : List C) (rest : List (List C)) (i : ℕ)
    (acc : List (List C)) :
    callLoop M emy ysh lm ls (y :: rest) i acc =
    callLoop M emy ysh lm ls rest (i + 1)
      (acc ++ [callStep M emy ysh lm ls i acc y]) := rfl

theorem compressLoop_cons (y : List C) (rest : List (List C)) (i : ℕ)
    (acc : List (List C)) (strs : List S) :
    compressLoop M emy ysh lm ls (y :: rest) i acc strs =
    compressLoop M emy ysh lm ls rest (i + 1)
      (acc ++ [compressStepYhat M emy ysh lm ls i acc y])
      (strs ++ [compressStepStr M emy ysh lm ls i acc y]) := rfl

theorem decodeLoop_take_length :
    ∀ (ss : List S) (i : ℕ) (acc : List (List C)),
    (decodeLoop M emy ysh lm ls ss i acc).take acc.length = acc := by
  intro ss
  induction ss with
  | nil => intro i acc; simp [decodeLoop]
  | cons s rest ih =>
    intro i acc
    rw [decodeLoop_cons]
    exact take_of_take_append (decodeStep M emy ysh lm ls i acc s)
      (by simpa using ih (i + 1) (acc ++ [decodeStep M emy ysh lm ls i acc s]))

theorem callLoop_take_length :
    ∀ (ys : List (List C)) (i : ℕ) (acc : List (List C)),
    (callLoop M emy ysh lm ls ys i acc).take acc.length = acc := by
  intro ys
  induction ys with
  | nil => intro i acc; simp [callLoop]
  | cons y rest ih =>
    intro i acc
    rw [callLoop_cons]
    exact take_of_take_append (callStep M emy ysh lm ls i acc y)
      (by simpa using ih (i + 1) (acc ++ [callStep M emy ysh lm ls i acc y]))

theorem compressLoop_snd_take_length :
    ∀ (ys : List (List C)) (i : ℕ) (acc : List (List C)) (strs : List S),
    ((compressLoop M emy ysh lm ls ys i acc strs).2).take acc.length = acc := by
  intro ys
  induction ys with
  | nil => intro i acc strs; simp [compressLoop]
  | cons y rest ih =>
    intro i acc strs
    rw [compressLoop_cons]
    refine take_of_take_append (compressStepYhat M emy ysh lm ls i acc y) ?_
    have h2 := ih (i + 1) (acc ++ [compressStepYhat M emy ysh lm ls i acc y])
      (strs ++ [compressStepStr M emy ysh lm ls i acc y])
    simpa using h2

theorem decodeLoop_take_agree :
    ∀ (n : ℕ) (ss ss' : List S) (i : ℕ) (acc : List (List C)),
    ss.take n = ss'.take n →
    (decodeLoop M emy ysh lm ls ss i acc).take (acc.length + n) =
    (decodeLoop M emy ysh lm ls ss' i acc).take (acc.length + n) := by
  intro n
  induction n with
  | zero =>
    intro ss ss' i acc _
    simp only [Nat.add_zero]
    rw [decodeLoop_take_length, decodeLoop_take_length]
  | succ n ih =>
    intro ss ss' i acc h
    cases ss with
    | nil =>
      cases ss' with
      | nil => rfl
      | cons b bs => simp at h
    | cons a as =>
      cases ss' with
      | nil => simp at h
      | cons b bs =>
        simp only [List.take_succ_cons] at h
        injection h with hab hn
        subst hab
        rw [decodeLoop_cons, decodeLoop_cons]
        have h2 := ih as bs (i + 1)
          (acc ++ [decodeStep M emy ysh lm ls i acc a]) hn
        simp only [List.length_append, List.length_singleton] at h2
        have harith : acc.length + (n + 1) = acc.length + 1 + n := by omega
        rw [harith]
        exact h2

theorem callLoop_take_agree :
    ∀ (n : ℕ) (ys ys' : List (List C)) (i : ℕ) (acc : List (List C)),
    ys.take n = ys'.take n →
    (callLoop M emy ysh lm ls ys i acc).take (acc.length + n) =
    (callLoop M emy ysh lm ls ys' i acc).take (acc.length + n) := by
  intro n
  induction n with
  | zero =>
    intro ys ys' i acc _
    simp only [Nat.add_zero]
    rw [callLoop_take_length, callLoop_take_length]
  | succ n ih =>
    intro ys ys' i acc h
    cases ys with
    | nil =>
      cases ys' with
      | nil => rfl
      | cons b bs => simp at h
    | cons a as =>
      cases ys' with
      | nil => simp at h
      | cons b bs =>
        simp only [List.take_succ_cons] at h
        injection h with hab hn
        subst hab
        rw [callLoop_cons, callLoop_cons]
        have h2 := ih as bs (i + 1)
          (acc ++ [callStep M emy ysh lm ls i acc a]) hn
        simp only [List.length_append, List.length_singleton] at h2
        have harith : acc.length + (n + 1) = acc.length + 1 + n := by omega
        rw [harith]
        exact h2

theorem compressLoop_snd_take_agree :
    ∀ (n : ℕ) (ys ys' : List (List C)) (i : ℕ) (acc : List (List C))
      (strs strs' : List S),
    ys.take n = ys'.take n →
    ((compressLoop M emy ysh lm ls ys i acc strs).2).take (acc.length + n) =
    ((compressLoop M emy ysh lm ls ys' i acc strs').2).take (acc.length + n) := by
  intro n
  induction n with
  | zero =>
    intro ys ys' i acc strs strs' _
    simp only [Nat.add_zero]
    rw [compressLoop_snd_take_length, compressLoop_snd_take_length]
  | succ n ih =>
    intro ys ys' i acc strs strs' h
    cases ys with
    | nil =>
      cases ys' with
      | nil => rfl
      | cons b bs => simp at h
    | cons a as =>
      cases ys' with
      | nil => simp at h
      | cons b bs =>
        simp only [List.take_succ_cons] at h
        injection h with hab hn
        subst hab
        rw [compressLoop_cons, compressLoop_cons]
        have h2 := ih as bs (i + 1)
          (acc ++ [compressStepYhat M emy ysh lm ls i acc a])
          (strs ++ [compressStepStr M emy ysh lm ls i acc a])
          (strs' ++ [compressStepStr M emy ysh lm ls i acc a]) hn
        simp only [List.length_append, List.length_singleton] at h2
        have harith : acc.length + (n + 1) = acc.length + 1 + n := by omega
        rw [harith]
        exact h2

end Loops

/-- C4: strict causality.  In the slice loops of `decompress`, `call` and
`compress`, the first `n` decoded slices are invariant under any change to
the inputs beyond position `n`: slice `i`'s decoded value depends only on
the hyperprior context and the slices `0..i-1` (take `n = i + 1`). -/
theorem claim_C4 {C Z S Img HP : Type} (M : ConvCharm C Z S Img HP)
    (emy : EMy C S) (ysh : ℕ × ℕ) (lm ls : List C) :
    (∀ (n : ℕ) (ss ss' : List S), ss.take n = ss'.take n →
      (decodeLoop M emy ysh lm ls ss 0 []).take n =
      (decodeLoop M emy ysh lm ls ss' 0 []).take n) ∧
    (∀ (n : ℕ) (ys ys' : List (List C)), ys.take n = ys'.take n →
      (callLoop M emy ysh lm ls ys 0 []).take n =
      (callLoop M emy ysh lm ls ys' 0 []).take n) ∧
    (∀ (n : ℕ) (ys ys' : List (List C)), ys.take n = ys'.take n →
      ((compressLoop M emy ysh lm ls ys 0 [] []).2).take n =
      ((compressLoop M emy ysh lm ls ys' 0 [] []).2).take n) := by
  refine ⟨?_, ?_, ?_⟩
  · intro n ss ss' h
    have h2 := decodeLoop_take_agree M emy ysh lm ls n ss ss' 0 [] h
    simpa using h2
  · intro n ys ys' h
    have h2 := callLoop_take_agree M emy ysh lm ls n ys ys' 0 [] h
    simpa using h2
  · intro n ys ys' h
    have h2 := compressLoop_snd_take_agree M emy ysh lm ls n ys ys' 0 [] [] [] h
    simpa using h2

/-- Witness for C4 on the concrete instrumented model: the first two
decoded slices agree when the inputs agree on their first two
positions. -/
theorem claim_C4_witness :
    (decodeLoop Mc1 emyMu (0, 0) lm10 lm10 [(), (), ()] 0 []).take 2 =
      (decodeLoop Mc1 emyMu (0, 0) lm10 lm10 [(), ()] 0 []).take 2 ∧
    (callLoop Mc1 emyMu (0, 0) lm10 lm10 [[5], [6], [7]] 0 []).take 2 =
      (callLoop Mc1 emyMu (0, 0) lm10 lm10 [[5], [6], [8]] 0 []).take 2 ∧
    ((compressLoop Mc1 emyMu (0, 0) lm10 lm10 [[5], [6], [7]] 0 [] []).2).take 2 =
      ((compressLoop Mc1 emyMu (0, 0) lm10 lm10 [[5], [6], [8]] 0 [] []).2).take 2 :=
  ⟨(claim_C4 Mc1 emyMu (0, 0) lm10 lm10).1 2 [(), (), ()] [(), ()] (by decide),
   (claim_C4 Mc1 emyMu (0, 0) lm10 lm10).2.1 2 [[5], [6], [7]] [[5], [6], [8]] (by decide),
   (claim_C4 Mc1 emyMu (0, 0) lm10 lm10).2.2 2 [[5], [6], [7]] [[5], [6], [8]] (by decide)⟩

section RoundTrip

variable {C Z S Img HP : Type} (M : ConvCharm C Z S Img HP) (emy : EMy C S)
variable (ysh : ℕ × ℕ) (lm ls : List C)

theorem compressLoop_strs_factor :
    ∀ (ys : List (List C)) (i : ℕ) (acc : List (List C)) (strs : List S),
    compressLoop M emy ysh lm ls ys i acc strs =
      (strs ++ (compressLoop M emy ysh lm ls ys i acc []).1,
       (compressLoop M emy ysh lm ls ys i acc []).2) := by
  intro ys
  induction ys with
  | nil => intro i acc strs; simp [compressLoop]
  | cons y rest ih =>
    intro i acc strs
    rw [compressLoop_cons, compressLoop_cons]
    rw [ih (i + 1) (acc ++ [compressStepYhat M emy ysh lm ls i acc y])
      (strs ++ [compressStepStr M emy ysh lm ls i acc y])]
    rw [ih (i + 1) (acc ++ [compressStepYhat M emy ysh lm ls i acc y])
      ([] ++ [compressStepStr M emy ysh lm ls i acc y])]
    simp

theorem compressLoop_fst_length :
    ∀ (ys : List (List C)) (i : ℕ) (acc : List (List C)) (strs : List S),
    ((compressLoop M emy ysh lm ls ys i acc strs).1).length =
      strs.length + ys.length := by
  intro ys
  induction ys with
  | nil => intro i acc strs; simp [compressLoop]
  | cons y rest ih =>
    intro i acc strs
    rw [compressLoop_cons]
    rw [ih (i + 1) (acc ++ [compressStepYhat M emy ysh lm ls i acc y])
      (strs ++ [compressStepStr M emy ysh lm ls i acc y])]
    simp
    omega

theorem decode_of_compress :
    ∀ (ys : List (List C)) (i : ℕ) (acc : List (List C)),
    decodeLoop M emy ysh lm ls (compressLoop M emy ysh lm ls ys i acc []).1
      i acc =
    (compressLoop M emy ysh lm ls ys i acc []).2 := by
  intro ys
  induction ys with
  | nil => intro i acc; simp [compressLoop, decodeLoop]
  | cons y rest ih =>
    intro i acc
    rw [compressLoop_cons]
    rw [compressLoop_strs_factor M emy ysh lm ls rest (i + 1)
      (acc ++ [compressStepYhat M emy ysh lm ls i acc y])
      ([] ++ [compressStepStr M emy ysh lm ls i acc y])]
    simp only [List.nil_append, List.singleton_append, List.cons_append]
    rw [decodeLoop_cons]
    exact ih (i + 1) (acc ++ [compressStepYhat M emy ysh lm ls i acc y])

end RoundTrip

theorem splitSlices_length {C : Type} (y : List C) (n : ℕ) :
    (splitSlices y n).length = n := by
  simp [splitSlices]

/-- C3: round-trip determinism.  For a frozen model, feeding the tuple
returned by `compress` into `decompress` succeeds, the decoded latent it
returns is bit-identical to the slices `compress` decoded internally while
encoding, and the reconstruction is exactly the crop/cast of the synthesis
of those slices — so the reconstruction is determined by the compressed
strings alone. -/
theorem claim_C3 {C Z S Img HP : Type} (M : ConvCharm C Z S Img HP)
    (emz : EMz Z S) (emy : EMy C S) (hem : M.em = some (emz, emy))
    (x : Img) (xsh ysh zsh : ℕ × ℕ) (zs : S) (ystrs : List S)
    (hc : compressFull M x = .ok (xsh, ysh, zsh, zs, ystrs)) :
    decompressFull M xsh ysh zsh zs ystrs =
      .ok (cropCast (M.nets.synthesis (compressYhat M emz emy x).flatten)
             xsh.1 xsh.2,
           (compressYhat M emz emy x).flatten) := by
  unfold compressFull at hc
  rw [hem] at hc
  simp only [Except.ok.injEq, Prod.mk.injEq] at hc
  obtain ⟨h1, h2, h3, h4, h5⟩ := hc
  subst h1
  subst h2
  subst h3
  subst h4
  subst h5
  unfold decompressFull
  rw [if_neg (by rw [compressLoop_fst_length, splitSlices_length]; simp)]
  rw [hem]
  simp only [compressYhat]
  rw [decode_of_compress]

/-- Witness for C3 on the concrete frozen model. -/
theorem claim_C3_witness :
    decompressFull Mc3 (0, 0) (0, 0) (0, 0) () (List.replicate 10 ()) =
      .ok (cropCast (Mc3.nets.synthesis (compressYhat Mc3 emzU emyMu 0).flatten)
             0 0,
           (compressYhat Mc3 emzU emyMu 0).flatten) :=
  claim_C3 Mc3 emzU emyMu rfl 0 (0, 0) (0, 0) (0, 0) ()
    (List.replicate 10 ()) (by rfl)

theorem cropCast_lookup (t : List (List (List ℚ))) (h w i j c : ℕ) :
    lookup3 (cropCast t h w) i j c =
      if i < h ∧ j < w then
        (lookup3 t i j c).map fun q => saturateCastUInt8 (roundTF q)
      else none := by
  unfold lookup3 cropCast
  by_cases hi : i < h
  · rw [List.getElem?_map, List.getElem?_take_of_lt hi]
    cases ht : t[i]? with
    | none =>
      simp only [Option.map_none', Option.none_bind]
      split <;> rfl
    | some row =>
      simp only [Option.map_some', Option.some_bind]
      by_cases hj : j < w
      · rw [List.getElem?_map, List.getElem?_take_of_lt hj]
        cases hr : row[j]? with
        | none =>
          simp only [Option.map_none', Option.none_bind]
          split <;> rfl
        | some px =>
          simp only [Option.map_some', Option.some_bind, List.getElem?_map]
          rw [if_pos (And.intro hi hj)]
      · have hfr : ((row.take w).map fun px =>
            px.map fun q => saturateCastUInt8 (roundTF q))[j]? = none := by
          apply List.getElem?_eq_none
          rw [List.length_map, List.length_take]
          omega
        rw [hfr, Option.none_bind, if_neg (fun hc2 => hj hc2.2)]
  · have hnone : ((t.take h).map fun row => (row.take w).map fun px =>
        px.map fun q => saturateCastUInt8 (roundTF q))[i]? = none := by
      apply List.getElem?_eq_none
      rw [List.length_map, List.length_take]
      omega
    rw [hnone, Option.none_bind, Option.none_bind, if_neg (fun hc2 => hi hc2.1)]

theorem cropCast_length (t : List (List (List ℚ))) (h w : ℕ) :
    (cropCast t h w).length ≤ h := by
  simp [cropCast, List.length_take]

theorem cropCast_row_length (t : List (List (List ℚ))) (h w : ℕ) :
    ∀ row ∈ cropCast t h w, row.length ≤ w := by
  intro row hrow
  unfold cropCast at hrow
  obtain ⟨r, _, hr⟩ := List.mem_map.mp hrow
  subst hr
  simp [List.length_take]

theorem saturateCastUInt8_le (z : ℤ) : saturateCastUInt8 z ≤ 255 := by
  unfold saturateCastUInt8
  split
  · omega
  · split
    · omega
    · omega

/-- C8: for every valid input, `decompress` returns the reconstruction
obtained by cropping the synthesis output to the spatial shape `x_shape`
from the bitstream and casting to 8-bit unsigned integers by saturating
round: the output is at most `x_shape` in each spatial dimension, every
pixel value is `saturateCastUInt8 (roundTF q)` of the corresponding
synthesis value `q`, and every value fits in 8 bits. -/
theorem claim_C8 {C Z S Img HP : Type} (M : ConvCharm C Z S Img HP)
    (emz : EMz Z S) (emy : EMy C S) (hem : M.em = some (emz, emy))
    (xsh ysh zsh : ℕ × ℕ) (zs : S) (ystrs : List S)
    (hlen : ystrs.length = M.num_slices) :
    decompressFull M xsh ysh zsh zs ystrs =
      .ok (decompressRecon M emz emy xsh ysh zsh zs ystrs,
           (decompressYhat M emz emy ysh zsh zs ystrs).flatten) ∧
    (decompressRecon M emz emy xsh ysh zsh zs ystrs).length ≤ xsh.1 ∧
    (∀ row ∈ decompressRecon M emz emy xsh ysh zsh zs ystrs,
      row.length ≤ xsh.2) ∧
    (∀ i j c, lookup3 (decompressRecon M emz emy xsh ysh zsh zs ystrs) i j c =
      if i < xsh.1 ∧ j < xsh.2 then
        (lookup3 (M.nets.synthesis
            (decompressYhat M emz emy ysh zsh zs ystrs).flatten) i j c).map
          fun q => saturateCastUInt8 (roundTF q)
      else none) ∧
    (∀ i j c v,
      lookup3 (decompressRecon M emz emy xsh ysh zsh zs ystrs) i j c = some v →
      v ≤ 255) := by
  refine ⟨?_, ?_, ?_, ?_, ?_⟩
  · unfold decompressFull
    rw [if_neg (by simp [hlen]), hem]
    unfold decompressRecon decompressYhat
    rfl
  · exact cropCast_length _ _ _
  · exact cropCast_row_length _ _ _
  · intro i j c
    exact cropCast_lookup _ _ _ _ _ _
  · intro i j c v hv
    unfold decompressRecon at hv
    rw [cropCast_lookup] at hv
    by_cases hcond : i < xsh.1 ∧ j < xsh.2
    · rw [if_pos hcond] at hv
      obtain ⟨q, _, hq2⟩ := Option.map_eq_some'.mp hv
      rw [← hq2]
      exact saturateCastUInt8_le _
    · rw [if_neg hcond] at hv
      exact absurd hv (Option.some_ne_none v).symm

/-- Witness for C8 on the concrete frozen model. -/
theorem claim_C8_witness :
    decompressFull Mc3 (0, 0) (0, 0) (0, 0) () (List.replicate 10 ()) =
      .ok (decompressRecon Mc3 emzU emyMu (0, 0) (0, 0) (0, 0) ()
             (List.replicate 10 ()),
           (decompressYhat Mc3 emzU emyMu (0, 0) (0, 0) ()
             (List.replicate 10 ())).flatten) ∧
    (decompressRecon Mc3 emzU emyMu (0, 0) (0, 0) (0, 0) ()
      (List.replicate 10 ())).length ≤ 0 ∧
    (∀ row ∈ decompressRecon Mc3 emzU emyMu (0, 0) (0, 0) (0, 0) ()
      (List.replicate 10 ()), row.length ≤ 0) ∧
    (∀ i j c, lookup3 (decompressRecon Mc3 emzU emyMu (0, 0) (0, 0) (0, 0) ()
        (List.replicate 10 ())) i j c =
      if i < 0 ∧ j < 0 then
        (lookup3 (Mc3.nets.synthesis
            (decompressYhat Mc3 emzU emyMu (0, 0) (0, 0) ()
              (List.replicate 10 ())).flatten) i j c).map
          fun q => saturateCastUInt8 (roundTF q)
      else none) ∧
    (∀ i j c v,
      lookup3 (decompressRecon Mc3 emzU emyMu (0, 0) (0, 0) (0, 0) ()
        (List.replicate 10 ())) i j c = some v → v ≤ 255) :=
  claim_C8 Mc3 emzU emyMu rfl (0, 0) (0, 0) (0, 0) ()
    (List.replicate 10 ()) (by rfl)
